import Mathlib

/-! dbprobe: key classification, frequency aggregation and size ranges.

A shallow embedding of `main.go` of keybase/dbprobe.

Go strings and byte slices are sequences of bytes; they are modelled as
`List Nat`, each element being a byte value.  `ObjType` is a Go `byte`; it is
modelled as a `Nat` and the one place where the source does arithmetic on it
(`objTyp + 1` in `keyRange`) reduces modulo `2^8` explicitly.
-/

namespace DbProbe

/-! ## Bytes and strings -/

/-- The bytes of an ASCII string literal. -/
def bytes (s : String) : List Nat := s.toList.map Char.toNat

/-- The byte of the separator `:`. -/
def colon : Nat := 58

/-- Go's `strings.Split(s, ":")`: the fields of `s` between the separators. A string
without a separator, the empty string included, gives one field. -/
def split : List Nat → List (List Nat)
  | [] => [[]]
  | c :: cs =>
    if c = colon then [] :: split cs
    else
      match split cs with
      | [] => [[c]]
      | f :: fs => (c :: f) :: fs

/-- Go's `strings.Join(fields, ":")`. -/
def join : List (List Nat) → List Nat
  | [] => []
  | [f] => f
  | f :: g :: fs => f ++ colon :: join (g :: fs)

/-- Bytewise lexicographic order, `bytes.Compare(a, b) < 0`. -/
def bytesLt : List Nat → List Nat → Bool
  | [], [] => false
  | [], _ :: _ => true
  | _ :: _, [] => false
  | a :: as, b :: bs => decide (a < b) || (decide (a = b) && bytesLt as bs)

/-! ## The key classifier -/

/-- The character class `[a-f0-9]` of `fieldExp`. -/
def inClass (c : Nat) : Bool :=
  (decide (97 ≤ c) && decide (c ≤ 102)) || (decide (48 ≤ c) && decide (c ≤ 57))

/-- The test `fieldExp.MatchString(s)` for `fieldExp = [a-f0-9]\x7b2\x7d`: the
expression carries no anchors, so it matches when two consecutive bytes of the
class occur anywhere in `s`. The class holds ASCII bytes only and the bytes of a
longer rune lie above `0x7f`, so matching over bytes and over runes agree. -/
def fieldExpMatchString : List Nat → Bool
  | a :: b :: rest => (inClass a && inClass b) || fieldExpMatchString (b :: rest)
  | _ => false

/-- The errors `DbKeyParseTyp` returns. -/
inductive ParseError where
  /-- `expected 3 colon-separated fields, found n`. -/
  | fields (n : Nat)
  /-- `2nd field should be a 1-byte hex string`. -/
  | notHex
  /-- The syntax error of `strconv.ParseUint`. -/
  | syntaxErr
  /-- The range error of `strconv.ParseUint`. -/
  | rangeErr
  deriving DecidableEq, Repr

deriving instance DecidableEq for Except

/-- The helper `lower` of `strconv`: `c | ('x' - 'X')`. -/
def lower (c : Nat) : Nat := c ||| 32

/-- The digit value `strconv.ParseUint` gives to a byte, before the check against
the base; `none` is the `default` branch of its `switch`. -/
def digitVal (c : Nat) : Option Nat :=
  if 48 ≤ c ∧ c ≤ 57 then some (c - 48)
  else if 97 ≤ lower c ∧ lower c ≤ 122 then some (lower c - 97 + 10)
  else none

/-- The digit loop of `strconv.ParseUint` for base 16 and bit size 8, started with
the accumulator `n`: `cutoff` is `maxUint64/16 + 1`, `maxVal` is `1<<8 - 1`, and the
arithmetic is that of `uint64`. -/
def parseUintLoop : List Nat → Nat → Except ParseError Nat
  | [], n => .ok n
  | c :: cs, n =>
    match digitVal c with
    | none => .error .syntaxErr
    | some d =>
      if d ≥ 16 then .error .syntaxErr
      else if n ≥ (2 ^ 64 - 1) / 16 + 1 then .error .rangeErr
      else
        let n16 := (n * 16) % 2 ^ 64
        let n1 := (n16 + d) % 2 ^ 64
        if n1 < n16 ∨ n1 > 2 ^ 8 - 1 then .error .rangeErr
        else parseUintLoop cs n1

/-- The call `strconv.ParseUint(s, 16, 8)`. -/
def parseUint (s : List Nat) : Except ParseError Nat :=
  if s = [] then .error .syntaxErr else parseUintLoop s 0

/-- The function `DbKeyParseTyp` of `main.go`. -/
def DbKeyParseTyp (s : List Nat) : Except ParseError Nat :=
  let v := split s
  if v.length < 3 then .error (.fields v.length)
  else if !fieldExpMatchString (v.getD 1 []) then .error .notHex
  else
    match parseUint (v.getD 1 []) with
    | .error e => .error e
    | .ok b => .ok b

/-! ## Key ranges -/

/-- A lowercase hexadecimal digit, as a byte. -/
def hexDigit (d : Nat) : Nat := if d < 10 then 48 + d else 87 + d

/-- The digits of `fmt.Sprintf("%02x", o)`. -/
def fmt02x (o : Nat) : List Nat :=
  if o < 256 then [hexDigit (o / 16), hexDigit (o % 16)]
  else (Nat.toDigits 16 o).map Char.toNat

/-- The closure `prefix` of `keyRange`: `fmt.Sprintf("kv:%02x:", o)`. -/
def keyPrefix (o : Nat) : List Nat := bytes "kv:" ++ fmt02x o ++ [colon]

/-- The type `util.Range` of goleveldb: the keys `k` with `Start ≤ k < Limit`. -/
structure Range where
  /-- The first key of the range. -/
  Start : List Nat
  /-- The first key after the range. -/
  Limit : List Nat
  deriving DecidableEq, Repr

/-- The function `keyRange` of `main.go`; `objTyp + 1` is computed in `byte`. -/
def keyRange (objTyp : Nat) : Range :=
  { Start := keyPrefix objTyp, Limit := keyPrefix ((objTyp + 1) % 256) }

/-- Membership of a key in a half-open range, under bytewise order. -/
def Range.contains (r : Range) (k : List Nat) : Bool :=
  !bytesLt k r.Start && bytesLt k r.Limit

/-! ## The name table -/

/-- The table `dbNameMap` of `main.go`; `none` is a missing map entry. -/
def dbNameMap (o : Nat) : Option String :=
  match o with
  | 0x00 => some "DBUser"
  | 0x0f => some "DBSig"
  | 0x10 => some "DBTeamChain"
  | 0x19 => some "DBUserPlusAllKeysV1"
  | 0xbe => some "DBOfflineRPC"
  | 0xbf => some "DBChatCollapses"
  | 0xca => some "DBMerkleAudit"
  | 0xcb => some "DBUnfurler"
  | 0xcc => some "DBStellarDisclaimer"
  | 0xcd => some "DBFTLStorage"
  | 0xce => some "DBTeamAuditor"
  | 0xcf => some "DBAttachmentUploader"
  | 0xd0 => some "DBHasRandomPW"
  | 0xda => some "DBDiskLRUEntries"
  | 0xdb => some "DBDiskLRUIndex"
  | 0xdc => some "DBImplicitTeamConflictInfo"
  | 0xdd => some "DBUidToFullName"
  | 0xde => some "DBUidToUsername"
  | 0xdf => some "DBUserPlusKeysVersioned"
  | 0xe0 => some "DBLink"
  | 0xe1 => some "DBLocalTrack"
  | 0xe3 => some "DBPGPKey"
  | 0xe4 => some "DBSigHints"
  | 0xe5 => some "DBProofCheck"
  | 0xe6 => some "DBUserSecretKeys"
  | 0xe7 => some "DBSigChainTailPublic"
  | 0xe8 => some "DBSigChainTailSemiprivate"
  | 0xe9 => some "DBSigChainTailEncrypted"
  | 0xea => some "DBChatActive"
  | 0xeb => some "DBUserEKBox"
  | 0xec => some "DBTeamEKBox"
  | 0xed => some "DBChatIndex"
  | 0xf0 => some "DBMerkleRoot"
  | 0xf1 => some "DBTrackers"
  | 0xf2 => some "DBGregor"
  | 0xf3 => some "DBTrackers2"
  | 0xf4 => some "DBTrackers2Reverse"
  | 0xf5 => some "DBNotificationDismiss"
  | 0xf6 => some "DBChatBlockIndex"
  | 0xf7 => some "DBChatBlocks"
  | 0xf8 => some "DBChatOutbox"
  | 0xf9 => some "DBChatInbox"
  | 0xfa => some "DBIdentify"
  | 0xfb => some "DBResolveUsernameToUID"
  | 0xfc => some "DBChatBodyHashIndex"
  | 0xfd => some "DBMerkleStore"
  | 0xfe => some "DBChatConvFailures"
  | 0xff => some "DBTeamList"
  | _ => none

/-! ## Output and the frequency record -/

/-- A line written to standard output, one constructor for each `fmt.Printf` of
`getKeyFreqs` and `calculateFreqs`. -/
inductive Line where
  /-- `unable to parse key k, s, err`, with `s` the split of the key. -/
  | unableToParse (key : List Nat) (s : List (List Nat)) (err : ParseError)
  /-- `found i keys so far`. -/
  | foundSoFar (i : Nat)
  /-- `found n key types in db`. -/
  | foundTypes (n : Nat)
  /-- `unable to get size for:name`, with the empty name for an unnamed tag. -/
  | unableToGetSize (name : String)
  /-- `name: count: v, size: s`; the size is the value handed to the byte
  formatter `humanize.Bytes`. -/
  | row (name : String) (count : Nat) (size : Int)
  deriving DecidableEq, Repr

/-- The map `map[ObjType]int`, as the list of its entries in the order in which
`range` visits them. Go leaves that order open: what is proved of a record is
proved of every order of its entries. A counter is a Go `int`; it cannot overflow
before the store holds `2^63` keys and is modelled as a natural number. -/
abbrev FreqMap := List (Nat × Nat)

/-- The map read `freqs[t]` with the presence flag. -/
def FreqMap.get? : FreqMap → Nat → Option Nat
  | [], _ => none
  | (k, v) :: m, t => if k = t then some v else FreqMap.get? m t

/-- The statement `freqs[t]++`: a missing entry reads as zero. -/
def FreqMap.incr : FreqMap → Nat → FreqMap
  | [], t => [(t, 1)]
  | (k, v) :: m, t => if k = t then (k, v + 1) :: m else (k, v) :: FreqMap.incr m t

/-- The loop of `getKeyFreqs` over the keys the iterator still yields, from the
loop counter `i` and the record `freqs`; the result is the record and the lines
printed. -/
def getKeyFreqsLoop : List (List Nat) → Nat → FreqMap → FreqMap × List Line
  | [], _, freqs => (freqs, [])
  | ldbKey :: rest, i, freqs =>
    match DbKeyParseTyp ldbKey with
    | .error err =>
      let r := getKeyFreqsLoop rest (i + 1) freqs
      (r.1, Line.unableToParse ldbKey (split ldbKey) err :: r.2)
    | .ok oKey =>
      let r := getKeyFreqsLoop rest (i + 1) (freqs.incr oKey)
      (r.1, if i > 0 ∧ i % 100000 = 0 then Line.foundSoFar i :: r.2 else r.2)

/-- The store as the program sees it: the keys the iterator yields in order, the
error the iterator reports at its end, and the answer of `db.SizeOf` for a range
(`none` is an error). -/
structure DB (E : Type) where
  /-- The keys yielded by `iter.Next()` and `iter.Key()`. -/
  keys : List (List Nat)
  /-- The value of `iter.Error()`. -/
  iterError : Option E
  /-- The sum of the sizes `db.SizeOf` returns for a range. -/
  sizeOf : Range → Option Int

/-- The function `getKeyFreqs` of `main.go`: the record, the value of
`iter.Error()`, and the lines printed. -/
def getKeyFreqs {E : Type} (db : DB E) : FreqMap × Option E × List Line :=
  let r := getKeyFreqsLoop db.keys 0 []
  (r.1, db.iterError, r.2)

/-- The local type `dbFreq` of `calculateFreqs`. -/
structure dbFreq where
  /-- The tag. -/
  k : Nat
  /-- The size of the range of the tag. -/
  size : Int
  /-- The count of the tag. -/
  v : Nat
  deriving DecidableEq, Repr

/-- The loop `for k, v := range freqMap` of `calculateFreqs`: the slice `freqs`
and the lines printed. -/
def sizeLoop (sizeOf : Range → Option Int) : FreqMap → List dbFreq × List Line
  | [] => ([], [])
  | (k, v) :: m =>
    let r := sizeLoop sizeOf m
    match sizeOf (keyRange k) with
    | none => (r.1, Line.unableToGetSize ((dbNameMap k).getD "") :: r.2)
    | some size => ({ k := k, v := v, size := size } :: r.1, r.2)

/-- The order the call of `sort.Slice` establishes: an element with the greater
size does not come after one with the smaller. -/
def sizeGe (a b : dbFreq) : Prop := b.size ≤ a.size

instance sizeGe.decidable : DecidableRel sizeGe := fun a b => Int.decLe b.size a.size

instance sizeGe.isTotal : IsTotal dbFreq sizeGe := ⟨fun a b => Int.le_total b.size a.size⟩

instance sizeGe.isTrans : IsTrans dbFreq sizeGe :=
  ⟨fun _ _ _ hab hbc => Int.le_trans hbc hab⟩

/-- The call `sort.Slice(freqs, less)` with `less i j := freqs[i].size > freqs[j].size`.
The library promises a sorted rearrangement and no order among equal sizes; the
model is one such sort. Together with the visiting order of the record it fixes
an order among rows of equal size that the program leaves open, so nothing is
stated below about the order of two rows of equal size. -/
def sortSlice (freqs : List dbFreq) : List dbFreq := freqs.insertionSort sizeGe

/-- The loop `for _, p := range freqs` of `calculateFreqs`: the rows printed. -/
def printLoop : List dbFreq → List Line
  | [] => []
  | p :: ps =>
    match dbNameMap p.k with
    | none => printLoop ps
    | some name => Line.row name p.v p.size :: printLoop ps

/-- The body of `calculateFreqs` after the call of `getKeyFreqs` has returned
without an error (lines 103 to 132). -/
def report (sizeOf : Range → Option Int) (freqMap : FreqMap) : List Line :=
  let r := sizeLoop sizeOf freqMap
  Line.foundTypes freqMap.length :: (r.2 ++ printLoop (sortSlice r.1))

/-- The rows that `report` prints, after the count of key types and the warnings. -/
def reportRows (sizeOf : Range → Option Int) (freqMap : FreqMap) : List Line :=
  printLoop (sortSlice (sizeLoop sizeOf freqMap).1)

/-- The end of a run of `calculateFreqs`: the lines printed, and the error of the
`panic` when there was one. -/
structure Run (E : Type) where
  /-- The lines printed, in order. -/
  out : List Line
  /-- The argument of `panic`. -/
  panic : Option E
  deriving Repr

/-- The function `calculateFreqs` of `main.go`; `opened` is the result of
`leveldb.OpenFile`. -/
def calculateFreqs {E : Type} (opened : Except E (DB E)) : Run E :=
  match opened with
  | .error err => { out := [], panic := some err }
  | .ok db =>
    match getKeyFreqs db with
    | (_, some err, out) => { out := out, panic := some err }
    | (freqMap, none, out) => { out := out ++ report db.sizeOf freqMap, panic := none }

/-! ## Reading the output -/

/-- Whether a line is a row of the report. -/
def Line.isRow : Line → Bool
  | .row _ _ _ => true
  | _ => false

/-- The size a row of the report shows; 0 for the other lines. -/
def Line.size : Line → Int
  | .row _ _ s => s
  | _ => 0

/-- The rows among the lines printed, in the order in which they were printed. -/
def printedRows (out : List Line) : List Line := out.filter Line.isRow

/-- The numbers `n` of the lines `found n key types in db` among the lines printed. -/
def foundCounts (out : List Line) : List Nat :=
  out.filterMap fun l => match l with
    | .foundTypes n => some n
    | _ => none

/-- The tags of the keys the classifier accepts, in the order of the keys. -/
def classified (keys : List (List Nat)) : List Nat :=
  keys.filterMap fun k => (DbKeyParseTyp k).toOption

/-! ## The store of the end-to-end scenario -/

/-- The keys of the scenario, in the order of the iterator. -/
def scenarioKeys : List (List Nat) :=
  [bytes "badkey", bytes "kv:00:alice", bytes "kv:00:bob", bytes "kv:0f:sig1"]

/-- A store with the given keys whose iterator ends without an error. -/
def storeOf (keys : List (List Nat)) (sizeOf : Range → Option Int) : DB Unit :=
  { keys := keys, iterError := none, sizeOf := sizeOf }

/-- The store of the scenario. -/
def scenarioDB (sizeOf : Range → Option Int) : DB Unit := storeOf scenarioKeys sizeOf


/-! ## Facts about splitting and joining -/

theorem split_ne_nil (s : List Nat) : split s ≠ [] := by
  cases s with
  | nil => simp [split]
  | cons c cs =>
    unfold split
    split_ifs
    · simp
    · cases split cs <;> simp

theorem split_length_pos (s : List Nat) : 1 ≤ (split s).length := by
  have h := split_ne_nil s
  cases hs : split s with
  | nil => exact absurd hs h
  | cons f fs => simp

theorem split_append_colon (a b : List Nat) (ha : ∀ c ∈ a, c ≠ colon) :
    split (a ++ colon :: b) = a :: split b := by
  induction a with
  | nil => simp [split]
  | cons c a ih =>
    have hc : c ≠ colon := ha c (List.mem_cons_self _ _)
    have ih2 := ih (fun x hx => ha x (List.mem_cons_of_mem _ hx))
    simp only [List.cons_append]
    rw [split, if_neg hc, ih2]

theorem join_cons_cons (c : Nat) (f : List Nat) (fs : List (List Nat)) :
    join ((c :: f) :: fs) = c :: join (f :: fs) := by
  cases fs <;> simp [join]

theorem join_split (s : List Nat) : join (split s) = s := by
  induction s with
  | nil => simp [split, join]
  | cons c cs ih =>
    unfold split
    split_ifs with hc
    · cases hs : split cs with
      | nil => exact absurd hs (split_ne_nil cs)
      | cons g gs =>
        rw [hs] at ih
        simp [join, ih, hc]
    · cases hs : split cs with
      | nil => exact absurd hs (split_ne_nil cs)
      | cons g gs =>
        rw [hs] at ih
        simp only [join_cons_cons, ih]

/-! ## Facts about hexadecimal digits -/

theorem hexDigit_ne_colon (d : Nat) (hd : d < 16) : hexDigit d ≠ colon := by
  unfold hexDigit colon
  split_ifs <;> omega

theorem inClass_hexDigit (d : Nat) (hd : d < 16) : inClass (hexDigit d) = true := by
  interval_cases d <;> decide

theorem digitVal_hexDigit (d : Nat) (hd : d < 16) : digitVal (hexDigit d) = some d := by
  interval_cases d <;> decide

theorem inClass_iff (c : Nat) : inClass c = true ↔ (97 ≤ c ∧ c ≤ 102) ∨ (48 ≤ c ∧ c ≤ 57) := by
  simp [inClass]

theorem inClass_eq_hexDigit (c : Nat) (hc : inClass c = true) :
    ∃ d, d < 16 ∧ c = hexDigit d := by
  rw [inClass_iff] at hc
  rcases hc with ⟨h1, h2⟩ | ⟨h1, h2⟩
  · exact ⟨c - 87, by omega, by unfold hexDigit; split_ifs <;> omega⟩
  · exact ⟨c - 48, by omega, by unfold hexDigit; split_ifs <;> omega⟩

theorem parseUint_two (a b d1 d2 : Nat) (h1 : digitVal a = some d1) (h2 : digitVal b = some d2)
    (hd1 : d1 < 16) (hd2 : d2 < 16) : parseUint [a, b] = .ok (d1 * 16 + d2) := by
  have e1 : ¬ (16 ≤ d1) := by omega
  have e2 : ¬ (16 ≤ d2) := by omega
  have e3 : (0 * 16 % 2 ^ 64 + d1) % 2 ^ 64 = d1 := by omega
  have e4 : (d1 * 16 % 2 ^ 64 + d2) % 2 ^ 64 = d1 * 16 + d2 := by omega
  have e5 : ¬ ((2 ^ 64 - 1) / 16 + 1 ≤ d1) := by omega
  have e6 : ¬ (d1 < 0 * 16 % 2 ^ 64 ∨ 2 ^ 8 - 1 < d1) := by omega
  have e7 : ¬ (d1 * 16 + d2 < d1 * 16 % 2 ^ 64 ∨ 2 ^ 8 - 1 < d1 * 16 + d2) := by omega
  have e8 : ¬ ((2 ^ 64 - 1) / 16 + 1 ≤ 0) := by omega
  simp only [parseUint, parseUintLoop, h1, h2, ge_iff_le, gt_iff_lt, e1, e2, e3, e4, e5, e6, e7,
    e8, if_false, List.cons_ne_nil, reduceCtorEq]

theorem fieldExpMatchString_two (a b : Nat) :
    fieldExpMatchString [a, b] = (inClass a && inClass b) := by
  simp [fieldExpMatchString]

/-- The classifier on a key whose split is known. -/
theorem DbKeyParseTyp_of_split (s f0 f1 f2 : List Nat) (fs : List (List Nat)) (t : Nat)
    (hs : split s = f0 :: f1 :: f2 :: fs) (hm : fieldExpMatchString f1 = true)
    (hp : parseUint f1 = .ok t) : DbKeyParseTyp s = .ok t := by
  simp [DbKeyParseTyp, hs, hm, hp]


/-! ## Facts about the bytewise order and the prefixes -/

theorem bytesLt_append_left (p r : List Nat) : bytesLt (p ++ r) p = false := by
  induction p with
  | nil => cases r <;> simp [bytesLt]
  | cons a p ih => simp [bytesLt, ih]

theorem bytesLt_append_append (a b x y : List Nat) (hl : a.length = b.length)
    (h : bytesLt a b = true) : bytesLt (a ++ x) (b ++ y) = true := by
  induction a generalizing b with
  | nil =>
    cases b with
    | nil => simp [bytesLt] at h
    | cons _ _ => simp at hl
  | cons c a ih =>
    cases b with
    | nil => simp at hl
    | cons d b =>
      simp only [List.length_cons, Nat.add_right_cancel_iff] at hl
      simp only [bytesLt, Bool.or_eq_true, Bool.and_eq_true, decide_eq_true_eq] at h
      simp only [List.cons_append, bytesLt, Bool.or_eq_true, Bool.and_eq_true, decide_eq_true_eq]
      rcases h with h | ⟨h1, h2⟩
      · exact Or.inl h
      · exact Or.inr ⟨h1, ih b hl h2⟩

theorem bytesLt_append_append_false (a b x y : List Nat) (hl : a.length = b.length)
    (h : bytesLt a b = true) : bytesLt (b ++ y) (a ++ x) = false := by
  induction a generalizing b with
  | nil =>
    cases b with
    | nil => simp [bytesLt] at h
    | cons _ _ => simp at hl
  | cons c a ih =>
    cases b with
    | nil => simp at hl
    | cons d b =>
      simp only [List.length_cons, Nat.add_right_cancel_iff] at hl
      simp only [bytesLt, Bool.or_eq_true, Bool.and_eq_true, decide_eq_true_eq] at h
      simp only [List.cons_append, bytesLt, Bool.or_eq_false_iff, Bool.and_eq_false_imp,
        decide_eq_false_iff_not, decide_eq_true_eq]
      rcases h with h | ⟨h1, h2⟩
      · exact ⟨by omega, fun e => by omega⟩
      · exact ⟨by omega, fun _ => ih b hl h2⟩

theorem hexDigit_lt (d e : Nat) (he : e < 16) (h : d < e) : hexDigit d < hexDigit e := by
  unfold hexDigit
  split_ifs <;> omega

theorem keyPrefix_eq (t : Nat) (ht : t < 256) :
    keyPrefix t = [107, 118, 58, hexDigit (t / 16), hexDigit (t % 16), 58] := by
  simp [keyPrefix, bytes, fmt02x, ht, colon]

theorem keyPrefix_length (t : Nat) (ht : t < 256) : (keyPrefix t).length = 6 := by
  rw [keyPrefix_eq t ht]; rfl

theorem keyPrefix_lt (t u : Nat) (hu : u < 256) (h : t < u) :
    bytesLt (keyPrefix t) (keyPrefix u) = true := by
  rw [keyPrefix_eq t (by omega), keyPrefix_eq u hu]
  simp only [bytesLt, Bool.or_eq_true, Bool.and_eq_true, decide_eq_true_eq]
  right; refine ⟨trivial, ?_⟩
  right; refine ⟨trivial, ?_⟩
  right; refine ⟨trivial, ?_⟩
  by_cases hq : t / 16 = u / 16
  · right
    refine ⟨by rw [hq], ?_⟩
    left
    exact hexDigit_lt (t % 16) (u % 16) (by omega) (by omega)
  · left
    exact hexDigit_lt (t / 16) (u / 16) (by omega) (by omega)

/-- A key that starts with the prefix of `t` lies in the range of `t`, for `t` below 255. -/
theorem keyRange_contains_prefix (t : Nat) (rest : List Nat) (ht : t ≤ 254) :
    (keyRange t).contains (keyPrefix t ++ rest) = true := by
  have h1 : bytesLt (keyPrefix t ++ rest) (keyPrefix t) = false := bytesLt_append_left _ _
  have h2 : bytesLt (keyPrefix t ++ rest) (keyPrefix (t + 1) ++ []) = true :=
    bytesLt_append_append _ _ _ _
      (by rw [keyPrefix_length t (by omega), keyPrefix_length (t + 1) (by omega)])
      (keyPrefix_lt t (t + 1) (by omega) (by omega))
  rw [List.append_nil] at h2
  have h3 : (t + 1) % 256 = t + 1 := by omega
  simp [Range.contains, keyRange, h1, h2, h3]

/-- A key that starts with the prefix of another tag lies outside the range of `t`. -/
theorem keyRange_not_contains_prefix (t u : Nat) (rest : List Nat) (ht : t ≤ 254)
    (hu : u < 256) (hne : u ≠ t) : (keyRange t).contains (keyPrefix u ++ rest) = false := by
  have h3 : (t + 1) % 256 = t + 1 := by omega
  rcases Nat.lt_or_gt_of_ne hne with h | h
  · have h1 : bytesLt (keyPrefix u ++ rest) (keyPrefix t ++ []) = true :=
      bytesLt_append_append _ _ _ _
        (by rw [keyPrefix_length u hu, keyPrefix_length t (by omega)])
        (keyPrefix_lt u t (by omega) h)
    rw [List.append_nil] at h1
    simp [Range.contains, keyRange, h1]
  · have h2 : bytesLt (keyPrefix u ++ rest) (keyPrefix (t + 1)) = false := by
      rcases Nat.eq_or_lt_of_le (Nat.succ_le_of_lt h) with e | l
      · rw [← e]; exact bytesLt_append_left _ _
      · have := bytesLt_append_append_false (keyPrefix (t + 1)) (keyPrefix u) [] rest
          (by rw [keyPrefix_length u hu, keyPrefix_length (t + 1) (by omega)])
          (keyPrefix_lt (t + 1) u hu l)
        rwa [List.append_nil] at this
    simp [Range.contains, keyRange, h2, h3]


theorem DbKeyParseTyp_ok_iff (s : List Nat) (t : Nat) :
    DbKeyParseTyp s = .ok t ↔
      3 ≤ (split s).length ∧ fieldExpMatchString ((split s).getD 1 []) = true ∧
        parseUint ((split s).getD 1 []) = .ok t := by
  unfold DbKeyParseTyp
  by_cases hl : (split s).length < 3
  · simp only [hl, if_true]
    constructor
    · intro h; cases h
    · intro h; omega
  · by_cases hm : fieldExpMatchString ((split s).getD 1 []) = true
    · simp only [hl, if_false, hm, Bool.not_true, Bool.false_eq_true]
      cases hp : parseUint ((split s).getD 1 []) with
      | error e => simp
      | ok b => simp; omega
    · simp only [Bool.not_eq_true] at hm
      simp only [hl, if_false, hm, Bool.not_false, if_true]
      constructor
      · intro h; cases h
      · intro h; exact absurd h.2.1 (by simp)

theorem hexPrefix_eq_keyPrefix (t : Nat) (ht : t < 256) :
    bytes "kv:" ++ [hexDigit (t / 16), hexDigit (t % 16)] ++ bytes ":" = keyPrefix t := by
  simp [keyPrefix, bytes, fmt02x, ht, colon]


/-! ## Facts about the frequency record -/

theorem FreqMap.get?_incr (m : FreqMap) (t u : Nat) :
    (m.incr t).get? u = if u = t then some ((m.get? t).getD 0 + 1) else m.get? u := by
  induction m with
  | nil =>
    by_cases h : u = t
    · simp [FreqMap.incr, FreqMap.get?, h]
    · have h2 : ¬ t = u := fun e => h e.symm
      simp [FreqMap.incr, FreqMap.get?, h, h2]
  | cons p m ih =>
    obtain ⟨k, v⟩ := p
    by_cases hk : k = t
    · subst hk
      by_cases h : u = k
      · subst h; simp [FreqMap.incr, FreqMap.get?]
      · have h2 : ¬ k = u := fun e => h e.symm
        simp [FreqMap.incr, FreqMap.get?, h, h2]
    · by_cases h : u = t
      · subst h
        simp [FreqMap.incr, FreqMap.get?, hk, ih]
      · by_cases hku : k = u
        · simp [FreqMap.incr, FreqMap.get?, hk, hku, h]
        · simp [FreqMap.incr, FreqMap.get?, hk, hku, h, ih]

theorem FreqMap.keys_incr (m : FreqMap) (t u : Nat) :
    u ∈ (m.incr t).map Prod.fst ↔ u = t ∨ u ∈ m.map Prod.fst := by
  induction m with
  | nil => simp [FreqMap.incr]
  | cons p m ih =>
    obtain ⟨k, v⟩ := p
    by_cases hk : k = t
    · subst hk
      simp [FreqMap.incr]
    · simp only [FreqMap.incr, hk, if_false, List.map_cons, List.mem_cons, ih]
      tauto

theorem FreqMap.nodup_incr (m : FreqMap) (t : Nat) (h : (m.map Prod.fst).Nodup) :
    ((m.incr t).map Prod.fst).Nodup := by
  induction m with
  | nil => simp [FreqMap.incr]
  | cons p m ih =>
    obtain ⟨k, v⟩ := p
    simp only [List.map_cons, List.nodup_cons] at h
    by_cases hk : k = t
    · subst hk
      simp only [FreqMap.incr, if_true, List.map_cons, List.nodup_cons]
      exact h
    · simp only [FreqMap.incr, hk, if_false, List.map_cons, List.nodup_cons]
      refine ⟨?_, ih h.2⟩
      rw [FreqMap.keys_incr]
      rintro (e | e)
      · exact hk e
      · exact h.1 e

theorem FreqMap.sum_incr (m : FreqMap) (t : Nat) :
    ((m.incr t).map Prod.snd).sum = (m.map Prod.snd).sum + 1 := by
  induction m with
  | nil => simp [FreqMap.incr]
  | cons p m ih =>
    obtain ⟨k, v⟩ := p
    by_cases hk : k = t
    · simp [FreqMap.incr, hk]; omega
    · simp [FreqMap.incr, hk, ih]; omega

theorem FreqMap.get?_eq_none_iff (m : FreqMap) (t : Nat) :
    m.get? t = none ↔ t ∉ m.map Prod.fst := by
  induction m with
  | nil => simp [FreqMap.get?]
  | cons p m ih =>
    obtain ⟨k, v⟩ := p
    by_cases hk : k = t
    · simp [FreqMap.get?, hk]
    · have h2 : ¬ t = k := fun e => hk e.symm
      simp [FreqMap.get?, hk, h2, ih]

/-- The record does not depend on the loop counter. -/
theorem getKeyFreqsLoop_counter (keys : List (List Nat)) (i j : Nat) (m : FreqMap) :
    (getKeyFreqsLoop keys i m).1 = (getKeyFreqsLoop keys j m).1 := by
  induction keys generalizing i j m with
  | nil => rfl
  | cons k keys ih =>
    unfold getKeyFreqsLoop
    cases DbKeyParseTyp k with
    | error e => exact ih (i + 1) (j + 1) m
    | ok t => exact ih (i + 1) (j + 1) (m.incr t)

theorem getKeyFreqsLoop_get? (keys : List (List Nat)) (i : Nat) (m : FreqMap) (t : Nat) :
    (getKeyFreqsLoop keys i m).1.get? t =
      if keys.countP (fun k => DbKeyParseTyp k = .ok t) = 0 then m.get? t
      else some ((m.get? t).getD 0 + keys.countP (fun k => DbKeyParseTyp k = .ok t)) := by
  induction keys generalizing i m with
  | nil => simp [getKeyFreqsLoop]
  | cons k keys ih =>
    unfold getKeyFreqsLoop
    cases hk : DbKeyParseTyp k with
    | error e =>
      simp only [List.countP_cons, hk]
      simpa using ih (i + 1) m
    | ok u =>
      simp only [List.countP_cons, hk]
      rw [ih (i + 1) (m.incr u), FreqMap.get?_incr]
      by_cases hu : t = u
      · subst hu
        simp only [if_true, Option.getD_some, decide_True, if_pos]
        rw [if_neg (Nat.succ_ne_zero _)]
        split_ifs with h0
        · rw [h0]
        · congr 1; omega
      · have h2 : ¬ u = t := fun e => hu e.symm
        simp [hu, h2]

theorem getKeyFreqsLoop_nodup (keys : List (List Nat)) (i : Nat) (m : FreqMap)
    (h : (m.map Prod.fst).Nodup) : ((getKeyFreqsLoop keys i m).1.map Prod.fst).Nodup := by
  induction keys generalizing i m with
  | nil => simpa [getKeyFreqsLoop] using h
  | cons k keys ih =>
    unfold getKeyFreqsLoop
    cases DbKeyParseTyp k with
    | error e => exact ih (i + 1) m h
    | ok t => exact ih (i + 1) (m.incr t) (FreqMap.nodup_incr m t h)

theorem getKeyFreqsLoop_sum (keys : List (List Nat)) (i : Nat) (m : FreqMap) :
    ((getKeyFreqsLoop keys i m).1.map Prod.snd).sum
      + keys.countP (fun k => !(DbKeyParseTyp k).isOk) = (m.map Prod.snd).sum + keys.length := by
  induction keys generalizing i m with
  | nil => simp [getKeyFreqsLoop]
  | cons k keys ih =>
    unfold getKeyFreqsLoop
    cases hk : DbKeyParseTyp k with
    | error e =>
      have := ih (i + 1) m
      have e1 : (!(Except.error e : Except ParseError Nat).isOk) = true := rfl
      simp only [List.countP_cons, hk, e1, if_true, List.length_cons]
      omega
    | ok t =>
      have := ih (i + 1) (m.incr t)
      rw [FreqMap.sum_incr] at this
      have e2 : (!(Except.ok t : Except ParseError Nat).isOk) = false := rfl
      simp only [List.countP_cons, hk, e2, Bool.false_eq_true, if_false, List.length_cons]
      omega

theorem getKeyFreqsLoop_skip (pre post : List (List Nat)) (k : List Nat) (err : ParseError)
    (i : Nat) (m : FreqMap) (hk : DbKeyParseTyp k = .error err) :
    (getKeyFreqsLoop (pre ++ k :: post) i m).1 = (getKeyFreqsLoop (pre ++ post) i m).1 := by
  induction pre generalizing i m with
  | nil =>
    simp only [List.nil_append]
    rw [getKeyFreqsLoop, hk]
    exact getKeyFreqsLoop_counter post (i + 1) i m
  | cons p pre ih =>
    simp only [List.cons_append]
    rw [getKeyFreqsLoop, getKeyFreqsLoop]
    cases DbKeyParseTyp p with
    | error e => exact ih (i + 1) m
    | ok t => exact ih (i + 1) (m.incr t)


/-! ## Facts about the report -/

theorem sizeLoop_fst (sizeOf : Range → Option Int) (fm : FreqMap) :
    (sizeLoop sizeOf fm).1 = fm.filterMap fun e =>
      (sizeOf (keyRange e.1)).map fun s => ({ k := e.1, size := s, v := e.2 } : dbFreq) := by
  induction fm with
  | nil => rfl
  | cons e fm ih =>
    obtain ⟨k, v⟩ := e
    unfold sizeLoop
    cases h : sizeOf (keyRange k) with
    | none => simp [h, ih]
    | some s => simp [h, ih]

theorem sizeLoop_snd_not_row (sizeOf : Range → Option Int) (fm : FreqMap) :
    (sizeLoop sizeOf fm).2.filter Line.isRow = [] := by
  induction fm with
  | nil => rfl
  | cons e fm ih =>
    obtain ⟨k, v⟩ := e
    unfold sizeLoop
    cases h : sizeOf (keyRange k) with
    | none => simp [ih, Line.isRow]
    | some s => simpa using ih

theorem printLoop_eq_filterMap (ps : List dbFreq) :
    printLoop ps = ps.filterMap fun p =>
      (dbNameMap p.k).map fun name => Line.row name p.v p.size := by
  induction ps with
  | nil => rfl
  | cons p ps ih =>
    unfold printLoop
    cases h : dbNameMap p.k with
    | none => simp [h, ih]
    | some name => simp [h, ih]

theorem printLoop_all_rows (ps : List dbFreq) : (printLoop ps).filter Line.isRow = printLoop ps := by
  induction ps with
  | nil => rfl
  | cons p ps ih =>
    unfold printLoop
    cases h : dbNameMap p.k with
    | none => simpa using ih
    | some name => simp [Line.isRow, ih]

/-- The rows among the lines of `report` are the lines of its last loop. -/
theorem printedRows_report (sizeOf : Range → Option Int) (fm : FreqMap) :
    printedRows (report sizeOf fm) = reportRows sizeOf fm := by
  simp [printedRows, report, reportRows, List.filter_cons, Line.isRow, sizeLoop_snd_not_row,
    printLoop_all_rows]

/-- The rows of the report are those of the named tags whose size query succeeded. -/
theorem reportRows_perm (sizeOf : Range → Option Int) (fm : FreqMap) :
    (reportRows sizeOf fm).Perm (fm.filterMap fun e =>
      match dbNameMap e.1, sizeOf (keyRange e.1) with
      | some name, some s => some (Line.row name e.2 s)
      | _, _ => none) := by
  unfold reportRows
  rw [printLoop_eq_filterMap]
  have h1 := (List.perm_insertionSort sizeGe (sizeLoop sizeOf fm).1).filterMap
    (fun p => (dbNameMap p.k).map fun name => Line.row name p.v p.size)
  rw [sizeLoop_fst, List.filterMap_filterMap] at h1
  unfold sortSlice
  rw [sizeLoop_fst]
  refine h1.trans (List.Perm.of_eq ?_)
  congr 1
  funext e
  cases h : sizeOf (keyRange e.1) <;> cases h2 : dbNameMap e.1 <;> simp [h2]

/-- The rows of the report come in order of non-increasing size. -/
theorem reportRows_sorted (sizeOf : Range → Option Int) (fm : FreqMap) :
    (reportRows sizeOf fm).Pairwise fun a b => b.size ≤ a.size := by
  unfold reportRows
  rw [printLoop_eq_filterMap]
  have hs : List.Pairwise sizeGe (sortSlice (sizeLoop sizeOf fm).1) :=
    List.sorted_insertionSort sizeGe _
  refine List.Pairwise.filterMap _ ?_ hs
  intro a a' haa b hb b' hb'
  simp only [Option.mem_def, Option.map_eq_some'] at hb hb'
  obtain ⟨_, _, rfl⟩ := hb
  obtain ⟨_, _, rfl⟩ := hb'
  exact haa


/-! ## Facts about the output of a run -/

theorem getKeyFreqsLoop_snd_not_row (keys : List (List Nat)) (i : Nat) (m : FreqMap) :
    (getKeyFreqsLoop keys i m).2.filter Line.isRow = [] := by
  induction keys generalizing i m with
  | nil => rfl
  | cons k keys ih =>
    unfold getKeyFreqsLoop
    cases DbKeyParseTyp k with
    | error e => simpa [Line.isRow] using ih (i + 1) m
    | ok t =>
      simp only
      split_ifs
      · simpa [Line.isRow] using ih (i + 1) (m.incr t)
      · exact ih (i + 1) (m.incr t)

theorem getKeyFreqsLoop_snd_foundCounts (keys : List (List Nat)) (i : Nat) (m : FreqMap) :
    foundCounts (getKeyFreqsLoop keys i m).2 = [] := by
  induction keys generalizing i m with
  | nil => rfl
  | cons k keys ih =>
    unfold getKeyFreqsLoop
    cases DbKeyParseTyp k with
    | error e => simpa [foundCounts] using ih (i + 1) m
    | ok t =>
      simp only
      split_ifs
      · simpa [foundCounts] using ih (i + 1) (m.incr t)
      · exact ih (i + 1) (m.incr t)

theorem sizeLoop_snd_foundCounts (sizeOf : Range → Option Int) (fm : FreqMap) :
    foundCounts (sizeLoop sizeOf fm).2 = [] := by
  induction fm with
  | nil => rfl
  | cons e fm ih =>
    obtain ⟨k, v⟩ := e
    unfold sizeLoop
    cases h : sizeOf (keyRange k) with
    | none => simpa [foundCounts] using ih
    | some s => simpa using ih

theorem printLoop_foundCounts (ps : List dbFreq) : foundCounts (printLoop ps) = [] := by
  induction ps with
  | nil => rfl
  | cons p ps ih =>
    unfold printLoop
    cases h : dbNameMap p.k with
    | none => simpa using ih
    | some name => simpa [foundCounts] using ih

theorem foundCounts_append (a b : List Line) :
    foundCounts (a ++ b) = foundCounts a ++ foundCounts b := by
  simp [foundCounts]

/-- A run on a store that opens and whose iterator reports no error. -/
theorem calculateFreqs_ok {E : Type} (db : DB E) (h : db.iterError = none) :
    calculateFreqs (.ok db) =
      { out := (getKeyFreqs db).2.2 ++ report db.sizeOf (getKeyFreqs db).1, panic := none } := by
  simp [calculateFreqs, getKeyFreqs, h]

theorem printedRows_calculateFreqs {E : Type} (db : DB E) (h : db.iterError = none) :
    printedRows (calculateFreqs (.ok db)).out = reportRows db.sizeOf (getKeyFreqs db).1 := by
  rw [calculateFreqs_ok db h]
  have h1 := getKeyFreqsLoop_snd_not_row db.keys 0 []
  have h2 := printedRows_report db.sizeOf (getKeyFreqs db).1
  unfold printedRows at h2 ⊢
  simp only [List.filter_append, h2]
  simp [getKeyFreqs, h1]

theorem foundCounts_calculateFreqs {E : Type} (db : DB E) (h : db.iterError = none) :
    foundCounts (calculateFreqs (.ok db)).out = [(getKeyFreqs db).1.length] := by
  rw [calculateFreqs_ok db h]
  simp only [foundCounts_append, report]
  have h1 : foundCounts (getKeyFreqs db).2.2 = [] := getKeyFreqsLoop_snd_foundCounts db.keys 0 []
  rw [h1]
  have h2 : ∀ (n : Nat) (ls : List Line),
      foundCounts (Line.foundTypes n :: ls) = n :: foundCounts ls := by
    intro n ls; simp [foundCounts]
  rw [List.nil_append, h2, foundCounts_append, sizeLoop_snd_foundCounts, printLoop_foundCounts]
  rfl

theorem mem_classified (keys : List (List Nat)) (t : Nat) :
    t ∈ classified keys ↔ ∃ k ∈ keys, DbKeyParseTyp k = .ok t := by
  unfold classified
  simp only [List.mem_filterMap]
  constructor
  · rintro ⟨k, hk, h⟩
    refine ⟨k, hk, ?_⟩
    cases hp : DbKeyParseTyp k with
    | error e => rw [hp] at h; simp [Except.toOption] at h
    | ok u => rw [hp] at h; simp [Except.toOption] at h; rw [h]
  · rintro ⟨k, hk, h⟩
    exact ⟨k, hk, by rw [h]; rfl⟩

theorem mem_getKeyFreqs {E : Type} (db : DB E) (t : Nat) :
    t ∈ (getKeyFreqs db).1.map Prod.fst ↔ t ∈ classified db.keys := by
  have h := getKeyFreqsLoop_get? db.keys 0 [] t
  have hn := FreqMap.get?_eq_none_iff (getKeyFreqsLoop db.keys 0 []).1 t
  rw [mem_classified]
  change t ∈ (getKeyFreqsLoop db.keys 0 []).1.map Prod.fst ↔ _
  by_cases hc : db.keys.countP (fun k => DbKeyParseTyp k = .ok t) = 0
  · rw [if_pos hc] at h
    have h0 : (getKeyFreqsLoop db.keys 0 []).1.get? t = none := by rw [h]; rfl
    have hnot := hn.1 h0
    rw [List.countP_eq_zero] at hc
    constructor
    · intro hm; exact absurd hm hnot
    · rintro ⟨k, hk, hp⟩
      exact absurd (by simpa using hp) (hc k hk)
  · rw [if_neg hc] at h
    have hmem : t ∈ (getKeyFreqsLoop db.keys 0 []).1.map Prod.fst := by
      by_contra hnot
      rw [hn.2 hnot] at h
      cases h
    have hpos : 0 < db.keys.countP (fun k => DbKeyParseTyp k = .ok t) := Nat.pos_of_ne_zero hc
    rw [List.countP_pos_iff] at hpos
    obtain ⟨k, hk, hp⟩ := hpos
    exact ⟨fun _ => ⟨k, hk, by simpa using hp⟩, fun _ => hmem⟩

/-- The record has one entry for each tag that a key classifies to. -/
theorem getKeyFreqs_length {E : Type} (db : DB E) :
    (getKeyFreqs db).1.length = (classified db.keys).dedup.length := by
  have hnd : ((getKeyFreqs db).1.map Prod.fst).Nodup :=
    getKeyFreqsLoop_nodup db.keys 0 [] (by simp)
  have hp : ((getKeyFreqs db).1.map Prod.fst).Perm (classified db.keys).dedup := by
    rw [List.perm_ext_iff_of_nodup hnd (List.nodup_dedup _)]
    intro t
    rw [mem_getKeyFreqs, List.mem_dedup]
  simpa using hp.length_eq

theorem dedup_length_of_mem (l : List Nat) (a : Nat) (h : a ∈ l) :
    l.dedup.length = (l.filter fun x => decide (x ≠ a)).dedup.length + 1 := by
  have hp : l.dedup.Perm (a :: (l.filter fun x => decide (x ≠ a)).dedup) := by
    rw [List.perm_ext_iff_of_nodup (List.nodup_dedup _)]
    · intro t
      simp only [List.mem_dedup, List.mem_cons, List.mem_filter, decide_eq_true_eq]
      constructor
      · intro ht
        by_cases e : t = a
        · exact Or.inl e
        · exact Or.inr ⟨ht, e⟩
      · rintro (e | ⟨ht, _⟩)
        · rw [e]; exact h
        · exact ht
    · rw [List.nodup_cons]
      refine ⟨?_, List.nodup_dedup _⟩
      simp [List.mem_dedup, List.mem_filter]
  simpa using hp.length_eq


/-! ## The classifier on well-formed and malformed keys -/

/-- C1: for every tag `t` in 0..255 and every remainder `rest`, the classifier
returns `t`, without an error, on the key made of `kv:`, the two lowercase
hexadecimal digits of `t`, a colon, and `rest`. -/
theorem DbKeyParseTyp_wellFormed (t : Nat) (rest : List Nat) (ht : t < 256) :
    DbKeyParseTyp (bytes "kv:" ++ [hexDigit (t / 16), hexDigit (t % 16)] ++ bytes ":" ++ rest)
      = .ok t := by
  have hq : t / 16 < 16 := by omega
  have hr : t % 16 < 16 := by omega
  obtain ⟨f, fs, hfs⟩ : ∃ f fs, split rest = f :: fs := by
    cases h : split rest with
    | nil => exact absurd h (split_ne_nil rest)
    | cons f fs => exact ⟨f, fs, rfl⟩
  have hkey : bytes "kv:" ++ [hexDigit (t / 16), hexDigit (t % 16)] ++ bytes ":" ++ rest
      = [107, 118] ++ colon :: ([hexDigit (t / 16), hexDigit (t % 16)] ++ colon :: rest) := by
    simp [bytes, colon]
  have hsplit : split ([107, 118] ++ colon :: ([hexDigit (t / 16), hexDigit (t % 16)]
      ++ colon :: rest)) = [107, 118] :: [hexDigit (t / 16), hexDigit (t % 16)] :: f :: fs := by
    rw [split_append_colon _ _ (by simp [colon]), split_append_colon _ _ ?_, hfs]
    intro c hc
    simp only [List.mem_cons, List.mem_singleton, List.not_mem_nil, or_false] at hc
    rcases hc with rfl | rfl
    · exact hexDigit_ne_colon _ hq
    · exact hexDigit_ne_colon _ hr
  rw [hkey]
  refine DbKeyParseTyp_of_split _ _ _ _ _ _ hsplit ?_ ?_
  · rw [fieldExpMatchString_two, inClass_hexDigit _ hq, inClass_hexDigit _ hr]; rfl
  · rw [parseUint_two _ _ _ _ (digitVal_hexDigit _ hq) (digitVal_hexDigit _ hr) hq hr]
    congr 1
    omega

/-- C1, at the tag `0xbe` and a remainder that contains a colon. -/
theorem DbKeyParseTyp_wellFormed_witness :
    190 < 256 ∧
    DbKeyParseTyp (bytes "kv:" ++ [hexDigit (190 / 16), hexDigit (190 % 16)] ++ bytes ":"
      ++ bytes "a:b") = .ok 190 :=
  ⟨by decide, DbKeyParseTyp_wellFormed 190 (bytes "a:b") (by decide)⟩

/-- C2: the key `kv:000:x` has a second field of three characters, which is not
two hexadecimal digits, and the classifier returns the tag 0 for it instead of an
error; likewise `kv:00A:x` gives the tag `0x0a` and `kv:0ff:x` the tag `0xff`. -/
theorem DbKeyParseTyp_accepts_long_field :
    split (bytes "kv:000:x") = [bytes "kv", bytes "000", bytes "x"] ∧
    DbKeyParseTyp (bytes "kv:000:x") = .ok 0 ∧
    DbKeyParseTyp (bytes "kv:00A:x") = .ok 10 ∧
    DbKeyParseTyp (bytes "kv:0ff:x") = .ok 255 := by
  decide

/-- C8, as stated, fails: the key `kv:abc:x` has three fields and its second field
`abc` passes the pattern check, and the numeric parse of `abc` fails with a range
error, which the classifier returns. -/
theorem DbKeyParseTyp_match_then_error :
    3 ≤ (split (bytes "kv:abc:x")).length ∧
    fieldExpMatchString ((split (bytes "kv:abc:x")).getD 1 []) = true ∧
    parseUint ((split (bytes "kv:abc:x")).getD 1 []) = .error .rangeErr ∧
    DbKeyParseTyp (bytes "kv:abc:x") = .error .rangeErr := by
  decide

/-- C8, amended: for every key with at least 3 colon-separated fields whose second
field is exactly two characters of the class `[a-f0-9]`, the pattern check passes
and the numeric parse of that field succeeds with a value below 256, which the
classifier returns. -/
theorem DbKeyParseTyp_two_digits (key : List Nat) (a b : Nat)
    (hlen : 3 ≤ (split key).length) (hfield : (split key).getD 1 [] = [a, b])
    (ha : inClass a = true) (hb : inClass b = true) :
    fieldExpMatchString ((split key).getD 1 []) = true ∧
    ∃ t, t < 256 ∧ parseUint ((split key).getD 1 []) = .ok t ∧ DbKeyParseTyp key = .ok t := by
  obtain ⟨d1, hd1, rfl⟩ := inClass_eq_hexDigit a ha
  obtain ⟨d2, hd2, rfl⟩ := inClass_eq_hexDigit b hb
  have hm : fieldExpMatchString [hexDigit d1, hexDigit d2] = true := by
    rw [fieldExpMatchString_two, ha, hb]; rfl
  have hp := parseUint_two _ _ _ _ (digitVal_hexDigit _ hd1) (digitVal_hexDigit _ hd2) hd1 hd2
  rw [hfield]
  refine ⟨hm, d1 * 16 + d2, by omega, hp, ?_⟩
  have hlen2 : ¬ (split key).length < 3 := by omega
  unfold DbKeyParseTyp
  simp only [hfield]
  simp [hlen2, hm, hp]

/-- C8, amended, at the key `kv:0f:sig1`. -/
theorem DbKeyParseTyp_two_digits_witness :
    fieldExpMatchString ((split (bytes "kv:0f:sig1")).getD 1 []) = true ∧
    ∃ t, t < 256 ∧ parseUint ((split (bytes "kv:0f:sig1")).getD 1 []) = .ok t ∧
      DbKeyParseTyp (bytes "kv:0f:sig1") = .ok t :=
  DbKeyParseTyp_two_digits (bytes "kv:0f:sig1") 48 102 (by decide) (by decide) (by decide)
    (by decide)


/-! ## The ranges of the size queries -/

/-- C3: for the tag `0xff` the sum `objTyp + 1` wraps to 0 in `byte`, so the limit of
the range is the prefix of the tag `0x00`, which sorts before the start `kv:ff:`;
the range is empty and holds no key that begins with `kv:ff:`. -/
theorem keyRange_ff_wraps :
    keyRange 255 = { Start := bytes "kv:ff:", Limit := bytes "kv:00:" } ∧
    bytesLt (keyRange 255).Limit (keyRange 255).Start = true ∧
    ∀ rest : List Nat, (keyRange 255).contains (bytes "kv:ff:" ++ rest) = false := by
  have h0 : keyRange 255 = { Start := bytes "kv:ff:", Limit := bytes "kv:00:" } := by decide
  refine ⟨h0, by decide, fun rest => ?_⟩
  have h := bytesLt_append_append_false (bytes "kv:00:") (bytes "kv:ff:") [] rest
    (by decide) (by decide)
  rw [List.append_nil] at h
  simp [Range.contains, h0, h]

/-- C9: for every tag `t` in 0..254 the range of `t` starts at the prefix of `t` and
ends at the prefix of `t + 1`; it holds every key that begins with the prefix of
`t`, and no key that begins with the prefix of another tag `u` in 0..255. -/
theorem keyRange_prefixed_keys (t : Nat) (ht : t ≤ 254) :
    (keyRange t).Start = bytes "kv:" ++ [hexDigit (t / 16), hexDigit (t % 16)] ++ bytes ":" ∧
    (keyRange t).Limit
      = bytes "kv:" ++ [hexDigit ((t + 1) / 16), hexDigit ((t + 1) % 16)] ++ bytes ":" ∧
    (∀ rest : List Nat, (keyRange t).contains
      (bytes "kv:" ++ [hexDigit (t / 16), hexDigit (t % 16)] ++ bytes ":" ++ rest) = true) ∧
    (∀ (u : Nat) (rest : List Nat), u < 256 → u ≠ t → (keyRange t).contains
      (bytes "kv:" ++ [hexDigit (u / 16), hexDigit (u % 16)] ++ bytes ":" ++ rest) = false) := by
  have h3 : (t + 1) % 256 = t + 1 := by omega
  refine ⟨?_, ?_, ?_, ?_⟩
  · rw [hexPrefix_eq_keyPrefix t (by omega)]; rfl
  · rw [hexPrefix_eq_keyPrefix (t + 1) (by omega)]
    simp [keyRange, h3]
  · intro rest
    rw [hexPrefix_eq_keyPrefix t (by omega)]
    exact keyRange_contains_prefix t rest ht
  · intro u rest hu hne
    rw [hexPrefix_eq_keyPrefix u hu]
    exact keyRange_not_contains_prefix t u rest ht hu hne

/-- C9, at the tag `0x0f`, whose successor `0x10` changes both digits. -/
theorem keyRange_prefixed_keys_witness :
    (keyRange 15).Start = bytes "kv:0f:" ∧ (keyRange 15).Limit = bytes "kv:10:" ∧
    (keyRange 15).contains (bytes "kv:0f:sig1") = true ∧
    (keyRange 15).contains (bytes "kv:10:sig1") = false := by
  have h := keyRange_prefixed_keys 15 (by decide)
  exact ⟨h.1, h.2.1, h.2.2.1 (bytes "sig1"), h.2.2.2 16 (bytes "sig1") (by decide) (by decide)⟩

/-- C10, as stated, fails: the classifier does not look at the first field. The key
`lo:00:x` is counted under the tag 0; it does not begin with `kv:00:` and lies
outside the range of the tag 0. -/
theorem DbKeyParseTyp_outside_keyRange :
    DbKeyParseTyp (bytes "lo:00:x") = .ok 0 ∧
    (bytes "kv:00:").isPrefixOf (bytes "lo:00:x") = false ∧
    (keyRange 0).contains (bytes "lo:00:x") = false := by
  decide

/-- C10, amended: for every key `k` and every tag `t` in 0..254, if the classifier
returns `t` on `k`, the first field of `k` is `kv` and the second field has two
characters, then `k` begins with the prefix of `t` and lies in the range of `t`. -/
theorem DbKeyParseTyp_inside_keyRange (k : List Nat) (t : Nat) (ht : t ≤ 254)
    (hk : DbKeyParseTyp k = .ok t) (hfirst : (split k).head? = some (bytes "kv"))
    (hsecond : ((split k).getD 1 []).length = 2) :
    (∃ rest, k = bytes "kv:" ++ [hexDigit (t / 16), hexDigit (t % 16)] ++ bytes ":" ++ rest)
      ∧ (keyRange t).contains k = true := by
  obtain ⟨hlen, hm, hp⟩ := (DbKeyParseTyp_ok_iff k t).1 hk
  obtain ⟨f0, f1, f2, fs, hs⟩ : ∃ f0 f1 f2 fs, split k = f0 :: f1 :: f2 :: fs := by
    match hsk : split k, hlen with
    | f0 :: f1 :: f2 :: fs, _ => exact ⟨f0, f1, f2, fs, rfl⟩
    | [], h => simp [hsk] at hlen
    | [_], h => simp [hsk] at hlen
    | [_, _], h => simp [hsk] at hlen
  rw [hs] at hfirst hsecond hm hp
  simp only [List.head?_cons, Option.some.injEq] at hfirst
  simp only [List.getD_cons_succ, List.getD_cons_zero] at hsecond hm hp
  obtain ⟨a, b, rfl⟩ : ∃ a b, f1 = [a, b] := by
    match f1, hsecond with
    | [a, b], _ => exact ⟨a, b, rfl⟩
  rw [fieldExpMatchString_two, Bool.and_eq_true] at hm
  obtain ⟨d1, hd1, rfl⟩ := inClass_eq_hexDigit a hm.1
  obtain ⟨d2, hd2, rfl⟩ := inClass_eq_hexDigit b hm.2
  rw [parseUint_two _ _ _ _ (digitVal_hexDigit _ hd1) (digitVal_hexDigit _ hd2) hd1 hd2] at hp
  have ht2 : t = d1 * 16 + d2 := by injection hp with e; exact e.symm
  have hq : t / 16 = d1 := by omega
  have hr : t % 16 = d2 := by omega
  have hjoin : k = bytes "kv:" ++ [hexDigit (t / 16), hexDigit (t % 16)] ++ bytes ":"
      ++ join (f2 :: fs) := by
    conv_lhs => rw [← join_split k, hs, hfirst, hq.symm, hr.symm]
    simp [join, bytes, colon]
  refine ⟨⟨join (f2 :: fs), hjoin⟩, ?_⟩
  rw [hjoin, hexPrefix_eq_keyPrefix t (by omega)]
  exact keyRange_contains_prefix t _ ht

/-- C10, amended, at the key `kv:0f:sig1`. -/
theorem DbKeyParseTyp_inside_keyRange_witness :
    (∃ rest, bytes "kv:0f:sig1"
        = bytes "kv:" ++ [hexDigit (15 / 16), hexDigit (15 % 16)] ++ bytes ":" ++ rest)
      ∧ (keyRange 15).contains (bytes "kv:0f:sig1") = true :=
  DbKeyParseTyp_inside_keyRange (bytes "kv:0f:sig1") 15 (by decide) (by decide) (by decide)
    (by decide)


/-! ## The frequency record and the report -/

/-- C4: for every sequence of keys, the record that `getKeyFreqs` returns gives each
tag `t` the number of keys on which the classifier returns `t` and has no entry for
a tag that no key classifies to (each tag has at most one entry); a key on which
the classifier fails can be dropped from the sequence without changing the record;
and the counts add up to the number of keys less the number of keys on which the
classifier fails. -/
theorem getKeyFreqs_counts {E : Type} (db : DB E) :
    (∀ t, (getKeyFreqs db).1.get? t =
        if db.keys.countP (fun k => DbKeyParseTyp k = .ok t) = 0 then none
        else some (db.keys.countP (fun k => DbKeyParseTyp k = .ok t))) ∧
    ((getKeyFreqs db).1.map Prod.fst).Nodup ∧
    (∀ pre post k err, db.keys = pre ++ k :: post → DbKeyParseTyp k = .error err →
        (getKeyFreqs db).1
          = (getKeyFreqs (⟨pre ++ post, db.iterError, db.sizeOf⟩ : DB E)).1) ∧
    ((getKeyFreqs db).1.map Prod.snd).sum
      = db.keys.length - db.keys.countP (fun k => !(DbKeyParseTyp k).isOk) := by
  refine ⟨?_, ?_, ?_, ?_⟩
  · intro t
    have h := getKeyFreqsLoop_get? db.keys 0 [] t
    simpa [getKeyFreqs, FreqMap.get?] using h
  · exact getKeyFreqsLoop_nodup db.keys 0 [] (by simp)
  · intro pre post k err hkeys hk
    simp only [getKeyFreqs, hkeys]
    exact getKeyFreqsLoop_skip pre post k err 0 [] hk
  · have h := getKeyFreqsLoop_sum db.keys 0 []
    simp only [List.map_nil, List.sum_nil, Nat.zero_add] at h
    simp only [getKeyFreqs]
    omega

/-- C4, on the store of the scenario: dropping `badkey` leaves the record as it is. -/
theorem getKeyFreqs_counts_witness :
    (getKeyFreqs (scenarioDB fun _ => none)).1
      = (getKeyFreqs (⟨[] ++ [bytes "kv:00:alice", bytes "kv:00:bob", bytes "kv:0f:sig1"],
          none, fun _ => none⟩ : DB Unit)).1 :=
  (getKeyFreqs_counts (scenarioDB fun _ => none)).2.2.1 []
    [bytes "kv:00:alice", bytes "kv:00:bob", bytes "kv:0f:sig1"] (bytes "badkey") (.fields 1)
    rfl (by decide)

/-- C5: for every frequency record and every outcome of the size queries, the rows
that `calculateFreqs` prints are, up to their order, one row for each entry of the
record whose tag has a name in `dbNameMap` and whose size query succeeded, with
the name, the count and the size of that tag; and they are printed in order of
non-increasing size. The rows of a run are those of its record. -/
theorem report_rows (sizeOf : Range → Option Int) (fm : FreqMap) :
    (printedRows (report sizeOf fm)).Perm (fm.filterMap fun e =>
      match dbNameMap e.1, sizeOf (keyRange e.1) with
      | some name, some s => some (Line.row name e.2 s)
      | _, _ => none) ∧
    (printedRows (report sizeOf fm)).Pairwise (fun a b => b.size ≤ a.size) ∧
    (∀ (E : Type) (db : DB E), db.iterError = none → db.sizeOf = sizeOf →
      (getKeyFreqs db).1 = fm →
      printedRows (calculateFreqs (.ok db)).out = printedRows (report sizeOf fm)) := by
  rw [printedRows_report]
  refine ⟨reportRows_perm sizeOf fm, reportRows_sorted sizeOf fm, ?_⟩
  intro E db h1 h2 h3
  rw [printedRows_calculateFreqs db h1, h2, h3]

/-- C5, on the store of the scenario with the sizes 5 and 7. -/
theorem report_rows_witness :
    printedRows (calculateFreqs (.ok (scenarioDB fun r =>
        if r = keyRange 0 then some 5 else some 7))).out
      = printedRows (report (fun r => if r = keyRange 0 then some 5 else some 7)
          [(0, 2), (15, 1)]) :=
  (report_rows (fun r => if r = keyRange 0 then some 5 else some 7) [(0, 2), (15, 1)]).2.2
    Unit (scenarioDB fun r => if r = keyRange 0 then some 5 else some 7) rfl rfl (by decide)


/-! ## The scenarios -/

/-- A rearrangement of two lines is one of the two orders. -/
theorem perm_pair_cases (l : List Line) (a b : Line) (h : l.Perm [a, b]) :
    l = [a, b] ∨ l = [b, a] := by
  have hlen : l.length = 2 := by simpa using h.length_eq
  match l, hlen with
  | [x, y], _ =>
    have hx : x ∈ [a, b] := h.subset (List.mem_cons_self _ _)
    simp only [List.mem_cons, List.mem_singleton, List.not_mem_nil, or_false] at hx
    rcases hx with rfl | rfl
    · have h2 : [y].Perm [b] := h.cons_inv
      have hy : y = b := by simpa using h2.subset (List.mem_cons_self _ _)
      exact Or.inl (by rw [hy])
    · have h2 : [y].Perm [a] := (h.trans (List.Perm.swap _ _ [])).cons_inv
      have hy : y = a := by simpa using h2.subset (List.mem_cons_self _ _)
      exact Or.inr (by rw [hy])

/-- A rearrangement of two lines in order of non-increasing size puts the line with
the greater size first. -/
theorem sorted_pair_eq (l : List Line) (a b : Line) (h : l.Perm [a, b])
    (hs : l.Pairwise fun x y => y.size ≤ x.size) (hlt : b.size < a.size) : l = [a, b] := by
  rcases perm_pair_cases l a b h with e | e
  · exact e
  · rw [e] at hs
    simp only [List.pairwise_cons, List.mem_singleton, forall_eq] at hs
    omega

/-- C6: on the store with the keys `kv:00:alice`, `kv:00:bob`, `kv:0f:sig1` and
`badkey`, the record is exactly `0x00: 2, 0x0f: 1`, the classifier fails on `badkey`
and the run prints a warning for it, and, whatever sizes the two size queries
return, the rows printed are the row of `DBUser` with count 2 and the row of
`DBSig` with count 1, in order of non-increasing size, for every order in which the
record is visited; when the two sizes differ, the row with the greater size is the
first one, for every such order and in the run itself. Nothing is said of the order
of two rows of equal size, which the program leaves open. -/
theorem scenario_report (sizeOf : Range → Option Int) (s0 sf : Int)
    (h0 : sizeOf (keyRange 0x00) = some s0) (hf : sizeOf (keyRange 0x0f) = some sf) :
    (∀ t, (getKeyFreqs (scenarioDB sizeOf)).1.get? t
        = if t = 0x00 then some 2 else if t = 0x0f then some 1 else none) ∧
    (getKeyFreqs (scenarioDB sizeOf)).1.length = 2 ∧
    DbKeyParseTyp (bytes "badkey") = .error (.fields 1) ∧
    (calculateFreqs (.ok (scenarioDB sizeOf))).panic = none ∧
    Line.unableToParse (bytes "badkey") [bytes "badkey"] (.fields 1)
      ∈ (calculateFreqs (.ok (scenarioDB sizeOf))).out ∧
    (s0 ≠ sf → printedRows (calculateFreqs (.ok (scenarioDB sizeOf))).out
      = (if s0 < sf then [Line.row "DBSig" 1 sf, Line.row "DBUser" 2 s0]
         else [Line.row "DBUser" 2 s0, Line.row "DBSig" 1 sf])) ∧
    (∀ fm : FreqMap, fm.Perm (getKeyFreqs (scenarioDB sizeOf)).1 →
      (printedRows (report sizeOf fm)).Perm [Line.row "DBUser" 2 s0, Line.row "DBSig" 1 sf] ∧
      (printedRows (report sizeOf fm)).Pairwise (fun a b => b.size ≤ a.size) ∧
      (sf < s0 → printedRows (report sizeOf fm)
        = [Line.row "DBUser" 2 s0, Line.row "DBSig" 1 sf]) ∧
      (s0 < sf → printedRows (report sizeOf fm)
        = [Line.row "DBSig" 1 sf, Line.row "DBUser" 2 s0])) := by
  have hloop : getKeyFreqsLoop scenarioKeys 0 []
      = ([(0, 2), (15, 1)],
          [Line.unableToParse (bytes "badkey") [bytes "badkey"] (.fields 1)]) := by decide
  have hfm : (getKeyFreqs (scenarioDB sizeOf)).1 = [(0, 2), (15, 1)] :=
    congrArg Prod.fst hloop
  have hout : (getKeyFreqs (scenarioDB sizeOf)).2.2
      = [Line.unableToParse (bytes "badkey") [bytes "badkey"] (.fields 1)] :=
    congrArg Prod.snd hloop
  have hrun := calculateFreqs_ok (scenarioDB sizeOf) rfl
  have hn0 : dbNameMap 0 = some "DBUser" := rfl
  have hnf : dbNameMap 15 = some "DBSig" := rfl
  have hall : ∀ fm : FreqMap, fm.Perm [(0, 2), (15, 1)] →
      (printedRows (report sizeOf fm)).Perm [Line.row "DBUser" 2 s0, Line.row "DBSig" 1 sf] ∧
      (printedRows (report sizeOf fm)).Pairwise (fun a b => b.size ≤ a.size) ∧
      (sf < s0 → printedRows (report sizeOf fm)
        = [Line.row "DBUser" 2 s0, Line.row "DBSig" 1 sf]) ∧
      (s0 < sf → printedRows (report sizeOf fm)
        = [Line.row "DBSig" 1 sf, Line.row "DBUser" 2 s0]) := by
    intro fm hperm
    have hp : (printedRows (report sizeOf fm)).Perm
        [Line.row "DBUser" 2 s0, Line.row "DBSig" 1 sf] := by
      rw [printedRows_report]
      refine (reportRows_perm sizeOf fm).trans ?_
      have h := hperm.filterMap (fun e =>
        match dbNameMap e.1, sizeOf (keyRange e.1) with
        | some name, some s => some (Line.row name e.2 s)
        | _, _ => none)
      refine h.trans (List.Perm.of_eq ?_)
      simp [List.filterMap_cons, hn0, hnf, h0, hf]
    have hs : (printedRows (report sizeOf fm)).Pairwise (fun a b => b.size ≤ a.size) := by
      rw [printedRows_report]
      exact reportRows_sorted sizeOf fm
    refine ⟨hp, hs, ?_, ?_⟩
    · intro hlt
      exact sorted_pair_eq _ _ _ hp hs hlt
    · intro hlt
      exact sorted_pair_eq _ _ _ (hp.trans (List.Perm.swap _ _ [])) hs hlt
  refine ⟨?_, ?_, by decide, ?_, ?_, ?_, ?_⟩
  · intro t
    rw [hfm]
    by_cases e0 : t = 0
    · subst e0; rfl
    · by_cases e1 : t = 15
      · subst e1; rfl
      · have e0' : ¬ 0 = t := fun e => e0 e.symm
        have e1' : ¬ 15 = t := fun e => e1 e.symm
        simp [FreqMap.get?, e0, e1, e0', e1']
  · rw [hfm]; rfl
  · rw [hrun]
  · rw [hrun, hout]; simp
  · intro hne
    have hrows : printedRows (calculateFreqs (.ok (scenarioDB sizeOf))).out
        = printedRows (report sizeOf [(0, 2), (15, 1)]) := by
      rw [printedRows_calculateFreqs _ rfl, printedRows_report, hfm]
      rfl
    rw [hrows]
    obtain ⟨_, _, hgt, hlt⟩ := hall [(0, 2), (15, 1)] (List.Perm.refl _)
    by_cases hc : s0 < sf
    · rw [if_pos hc]; exact hlt hc
    · rw [if_neg hc]; exact hgt (by omega)
  · intro fm hperm
    rw [hfm] at hperm
    exact hall fm hperm

/-- C6, with the size 5 for the tag `0x00` and 7 for the tag `0x0f`: the row of
`DBSig` comes first. -/
theorem scenario_report_witness :
    printedRows (calculateFreqs (.ok (scenarioDB fun r =>
        if r = keyRange 0x00 then some 5 else some 7))).out
      = (if (5 : Int) < 7 then [Line.row "DBSig" 1 7, Line.row "DBUser" 2 5]
         else [Line.row "DBUser" 2 5, Line.row "DBSig" 1 7]) :=
  (scenario_report (fun r => if r = keyRange 0x00 then some 5 else some 7) 5 7
    (by decide) (by decide)).2.2.2.2.2.1 (by decide)

/-- C7: when the iterator reports no error, the run prints one line
`found N key types in db`, and `N` is the number of distinct tags that the
classifier returns on some key, named in `dbNameMap` or not. With the key
`kv:aa:xyz` in the store, the record holds a positive count for the tag `0xaa`,
and `N` is one more than the number of distinct other tags. Every row printed
belongs to a tag other than `0xaa`. -/
theorem foundTypes_counts {E : Type} (db : DB E) (h : db.iterError = none) :
    foundCounts (calculateFreqs (.ok db)).out = [(classified db.keys).dedup.length] ∧
    (bytes "kv:aa:xyz" ∈ db.keys →
      (∃ c, 0 < c ∧ (getKeyFreqs db).1.get? 0xaa = some c) ∧
      (classified db.keys).dedup.length
        = ((classified db.keys).filter fun t => decide (t ≠ 0xaa)).dedup.length + 1) ∧
    (∀ l ∈ printedRows (calculateFreqs (.ok db)).out, ∃ t name c s,
      t ≠ 0xaa ∧ dbNameMap t = some name ∧ (t, c) ∈ (getKeyFreqs db).1 ∧
        db.sizeOf (keyRange t) = some s ∧ l = Line.row name c s) := by
  refine ⟨?_, ?_, ?_⟩
  · rw [foundCounts_calculateFreqs db h, getKeyFreqs_length]
  · intro hmem
    have hk : DbKeyParseTyp (bytes "kv:aa:xyz") = .ok 0xaa := by decide
    have hcl : 0xaa ∈ classified db.keys := (mem_classified _ _).2 ⟨_, hmem, hk⟩
    refine ⟨?_, dedup_length_of_mem _ _ hcl⟩
    have hg := getKeyFreqsLoop_get? db.keys 0 [] 0xaa
    have hpos : 0 < db.keys.countP (fun k => DbKeyParseTyp k = .ok 0xaa) := by
      rw [List.countP_pos_iff]
      exact ⟨_, hmem, by simpa using hk⟩
    rw [if_neg (by omega)] at hg
    refine ⟨_, hpos, ?_⟩
    simpa [getKeyFreqs, FreqMap.get?] using hg
  · intro l hl
    rw [printedRows_calculateFreqs db h] at hl
    have hl2 := (reportRows_perm db.sizeOf (getKeyFreqs db).1).subset hl
    rw [List.mem_filterMap] at hl2
    obtain ⟨⟨t, c⟩, hmem, hrow⟩ := hl2
    cases hn : dbNameMap t with
    | none => simp [hn] at hrow
    | some name =>
      cases hs : db.sizeOf (keyRange t) with
      | none => simp [hn, hs] at hrow
      | some s =>
        simp only [hn, hs, Option.some.injEq] at hrow
        refine ⟨t, name, c, s, ?_, hn, hmem, hs, hrow.symm⟩
        intro e
        have hnone : dbNameMap 0xaa = none := rfl
        rw [e, hnone] at hn
        cases hn

/-- C7, on a store with the keys `kv:00:alice` and `kv:aa:xyz`: two key types. -/
theorem foundTypes_counts_witness :
    foundCounts (calculateFreqs (.ok
      (storeOf [bytes "kv:00:alice", bytes "kv:aa:xyz"] fun _ => some 1))).out
      = [(classified [bytes "kv:00:alice", bytes "kv:aa:xyz"]).dedup.length] :=
  (foundTypes_counts (storeOf [bytes "kv:00:alice", bytes "kv:aa:xyz"] fun _ => some 1) rfl).1

end DbProbe
